import Mathlib

/-!
Shallow embedding of the windowed time-series core of the repository
(`codigos/L5_M10.py` and `codigos/feature_calculator.py`).

Timestamps are modelled as rationals counting seconds of local wall-clock
time, so that local midnights are exactly the multiples of 86400 and clock
minute marks the multiples of 60; sample values are rationals.  A time series
is a list of (timestamp, value) pairs in index order.  Pandas label slicing
`series[a:b]` over a monotone index keeps the samples with `a ≤ t ≤ b`, both
endpoints included, which `sliceC` reproduces.  A Python function that can
raise an unhandled exception is modelled with `Option` / `RunResult.crash`
(the `none` / `.crash` value standing for the exception escaping the call).
-/

/-- Timestamp of the first sample, `data.index[0]`; the junk default 0 is only
taken on the empty series, where the Python code raises before using it. -/
def firstTs (s : List (ℚ × ℚ)) : ℚ := (s.head?.map Prod.fst).getD 0

/-- Timestamp of the last sample, `data.index[-1]`; junk default 0 on `[]`. -/
def lastTs (s : List (ℚ × ℚ)) : ℚ := (s.getLast?.map Prod.fst).getD 0

/-- Pandas label slice `s[a:b]` over a monotone index: the samples whose
timestamp lies in the closed interval `[a, b]` (both endpoints included). -/
def sliceC (s : List (ℚ × ℚ)) (a b : ℚ) : List (ℚ × ℚ) :=
  s.filter (fun pr => decide (a ≤ pr.1 ∧ pr.1 ≤ b))

/-- Pandas `.mean()`: arithmetic mean of a list of values. -/
def meanQ (l : List ℚ) : ℚ := l.sum / (l.length : ℚ)

/-- Shift every timestamp of a series by `c`, keeping the values. -/
def shiftTs (c : ℚ) (s : List (ℚ × ℚ)) : List (ℚ × ℚ) :=
  s.map (fun pr => (pr.1 + c, pr.2))

/-- The data-model invariant on input series: strictly increasing timestamps. -/
def tsSorted (s : List (ℚ × ℚ)) : Prop := (s.map Prod.fst).Pairwise (· < ·)

instance (s : List (ℚ × ℚ)) : Decidable (tsSorted s) :=
  inferInstanceAs (Decidable ((s.map Prod.fst).Pairwise (· < ·)))

/-- The sliding-window scan of `get_L5_short_period` / `get_M10_short_period`:
iterate over the anchors in index order (`for beg_window in short_data.index`),
stop at the first anchor whose window end exceeds the last timestamp of the
scanned series (`if end_window > short_data.index[-1]: break`), and otherwise
record the pandas mean of the label slice `short_data[beg:beg+d]`, keyed by the
window midpoint `beg + d/2`.  `s` is the full scanned series, `last` its last
timestamp, and the fourth argument the remaining anchors. -/
def wmGo (s : List (ℚ × ℚ)) (last d : ℚ) : List (ℚ × ℚ) → List (ℚ × ℚ)
  | [] => []
  | p :: rest =>
    if last < p.1 + d then []
    else (p.1 + d / 2, meanQ ((sliceC s p.1 (p.1 + d)).map Prod.snd)) :: wmGo s last d rest

/-- The `averages_5h` / `averages_10h` dict built by the short-period scan, in
insertion order: one `(midpoint, mean)` entry per anchor kept by `wmGo`. -/
def windowMeans (d : ℚ) (s : List (ℚ × ℚ)) : List (ℚ × ℚ) := wmGo s (lastTs s) d s

/-- Python `min(d, key=d.get)` over an insertion-ordered dict: scan the entries
keeping the first one whose value is strictly smaller than the current best. -/
def aminGo (best : ℚ × ℚ) : List (ℚ × ℚ) → ℚ
  | [] => best.1
  | q :: rest => if q.2 < best.2 then aminGo q rest else aminGo best rest

/-- Key of the first minimal value; `none` models the `ValueError` that
`min` raises on an empty dict. -/
def argminFirst : List (ℚ × ℚ) → Option ℚ
  | [] => none
  | p :: rest => some (aminGo p rest)

/-- Python `max(d, key=d.get)`: first entry with maximal value. -/
def amaxGo (best : ℚ × ℚ) : List (ℚ × ℚ) → ℚ
  | [] => best.1
  | q :: rest => if best.2 < q.2 then amaxGo q rest else amaxGo best rest

/-- Key of the first maximal value; `none` models the `ValueError` that
`max` raises on an empty dict. -/
def argmaxFirst : List (ℚ × ℚ) → Option ℚ
  | [] => none
  | p :: rest => some (amaxGo p rest)

/-- Model of `(t + period).replace(hour=0, minute=0, second=0, microsecond=0)` for the
day loops (period 86400), and `(t + 1min).replace(second=0, microsecond=0)`
for the minute loop (period 60): the next multiple of `p` strictly after `t`. -/
def nextMark (p t : ℚ) : ℚ := ((⌊t / p⌋ : ℤ) + 1) * p

/-- Fuel-indexed unfolding of the boundary loop `while beg < e`: emit the next
clock-aligned mark, clipped to `e` when it would overflow (`if end_day >
end_timestamp: end_day = end_timestamp`), then continue from that mark. -/
def marksGo (p e : ℚ) : Nat → ℚ → List ℚ
  | 0, _ => []
  | n + 1, beg =>
    if beg < e then
      (if e ≤ nextMark p beg then [e] else nextMark p beg :: marksGo p e n (nextMark p beg))
    else []

/-- The successive loop boundaries (`end_day` values of the day loops of
`get_L5` / `get_M10` / `get_VMC_serie`, or `next_minute` values of the minute
loop, according to `p`).  The fuel `(⌈e/p⌉ - ⌊beg/p⌋).toNat + 1` is provably
sufficient for `0 < p` (`marks_eq` below), so the list is exactly what the
Python `while` loop produces. -/
def marks (p beg e : ℚ) : List ℚ := marksGo p e ((⌈e / p⌉ - ⌊beg / p⌋).toNat + 1) beg

/-- Fuel-indexed unfolding of the fixed-step hour loop of `get_VMC_serie`
(`hour_end = hour_beg + timedelta(hours=1)`, clipped to the day end). -/
def stepMarksGo (p e : ℚ) : Nat → ℚ → List ℚ
  | 0, _ => []
  | n + 1, beg =>
    if beg < e then
      (if e ≤ beg + p then [e] else (beg + p) :: stepMarksGo p e n (beg + p))
    else []

/-- The successive `hour_end` boundaries of the hour loop of `get_VMC_serie`;
the fuel is provably sufficient for `0 < p` (`stepMarks_eq` below). -/
def stepMarks (p beg e : ℚ) : List ℚ := stepMarksGo p e (⌈(e - beg) / p⌉.toNat + 1) beg

/-- The `(beg_day, end_day)` (or `(minute, next_minute)`) pairs handled by the
successive iterations of a boundary loop running from `beg` to `e`. -/
def markIntervals (p beg e : ℚ) : List (ℚ × ℚ) :=
  (beg :: marks p beg e).zip (marks p beg e)

/-- The day intervals of the `while beg_day < end_timestamp` loops of
`get_L5` and `get_M10`. -/
def dayIntervals (data : List (ℚ × ℚ)) : List (ℚ × ℚ) :=
  markIntervals 86400 (firstTs data) (lastTs data)

/-- The per-day sub-series `data[beg_day:end_day]` handled by the day loops of
`get_L5` and `get_M10` (pandas label slices, hence closed intervals). -/
def dayChunks (data : List (ℚ × ℚ)) : List (List (ℚ × ℚ)) :=
  (dayIntervals data).map (fun q => sliceC data q.1 q.2)

/-- Outcome of a call to `get_L5` / `get_M10`: a returned timestamp, the
`False` sentinel printed-and-returned by `get_L5` on data shorter than 5
hours, or an exception escaping the call (`IndexError` on an empty series,
`ValueError` from `min` / `max` on an empty dict). -/
inductive RunResult where
  | ok : ℚ → RunResult
  | errShort : RunResult
  | crash : RunResult
deriving DecidableEq

/-- Embedding of `get_L5_short_period`: 5-hour sliding windows (18000 s), first minimal
mean, `none` for the `ValueError` of `min` on an empty dict. -/
def get_L5_short_period (short_data : List (ℚ × ℚ)) : Option ℚ :=
  argminFirst (windowMeans 18000 short_data)

/-- Embedding of `get_M10_short_period`: 10-hour sliding windows (36000 s), first maximal
mean, `none` for the `ValueError` of `max` on an empty dict. -/
def get_M10_short_period (short_data : List (ℚ × ℚ)) : Option ℚ :=
  argmaxFirst (windowMeans 36000 short_data)

/-- Embedding of `get_L5`: crash on empty input (`data.index[0]`), the `False` sentinel when
the span is below 5 hours, per-day chunking with cross-day averaging of the
per-day midpoints (`pd.Series(L5s).mean()`) when the record exceeds one day
(`beg + 1 day < end`), and the direct short-period scan otherwise. -/
def get_L5 (data : List (ℚ × ℚ)) : RunResult :=
  if data.isEmpty then .crash
  else if lastTs data - firstTs data < 18000 then .errShort
  else if firstTs data + 86400 < lastTs data then
    if ((dayChunks data).map get_L5_short_period).all Option.isSome then
      .ok (meanQ ((dayChunks data).map get_L5_short_period).reduceOption)
    else .crash
  else
    match get_L5_short_period data with
    | some t => .ok t
    | none => .crash

/-- Embedding of `get_M10`: same chunking structure as `get_L5` but with 10-hour windows,
maximal mean, and no span guard at all. -/
def get_M10 (data : List (ℚ × ℚ)) : RunResult :=
  if data.isEmpty then .crash
  else if firstTs data + 86400 < lastTs data then
    if ((dayChunks data).map get_M10_short_period).all Option.isSome then
      .ok (meanQ ((dayChunks data).map get_M10_short_period).reduceOption)
    else .crash
  else
    match get_M10_short_period data with
    | some t => .ok t
    | none => .crash

/-- Embedding of `get_VMC`: on an empty bucket, a `None` value keyed by the nominal bucket
start `first_timestamp`; otherwise the mean absolute deviation of the values
from the bucket mean, keyed by the mean of the sample timestamps. -/
def get_VMC (r : List (ℚ × ℚ)) (first_timestamp : ℚ) : ℚ × Option ℚ :=
  if r.isEmpty then (first_timestamp, none)
  else
    (meanQ (r.map Prod.fst),
     some (meanQ ((r.map Prod.snd).map (fun v => |v - meanQ (r.map Prod.snd)|))))

/-- The `hour_end` boundaries of the hour loop of `get_VMC_serie` over one day
segment. -/
def vmcHourBounds (dayBeg dayEnd : ℚ) : List ℚ := stepMarks 3600 dayBeg dayEnd

/-- The `(minute, next_minute)` pairs of the minute loop of `get_VMC_serie`
over one hour chunk `r` (the loop runs `while minute < r_1hour.index[-1]`,
clipping `next_minute` to that last timestamp). -/
def vmcMinuteIntervals (hourBeg : ℚ) (r : List (ℚ × ℚ)) : List (ℚ × ℚ) :=
  markIntervals 60 hourBeg (lastTs r)

/-- The per-minute `get_VMC` results collected by the minute loop of
`get_VMC_serie` over one hour chunk: `get_VMC(r_1hour[minute:next_minute],
minute)` for each minute interval. -/
def vmcBuckets (hourBeg : ℚ) (r : List (ℚ × ℚ)) : List (ℚ × Option ℚ) :=
  (vmcMinuteIntervals hourBeg r).map (fun q => get_VMC (sliceC r q.1 q.2) q.1)

/-- First value stored under timestamp `t` in a series (pandas lookup);
`none` when the timestamp is absent, which pandas renders as NaN after the
outer join of `get_acc_data`. -/
def lookupTs (s : List (ℚ × ℚ)) (t : ℚ) : Option ℚ :=
  (s.find? (fun pr => decide (pr.1 = t))).map Prod.snd

/-- Ordered insertion without duplicates, building the sorted union of
timestamp sets that `pd.concat([...], axis=1)` aligns on. -/
def insertTs (t : ℚ) : List ℚ → List ℚ
  | [] => [t]
  | a :: rest =>
    if t = a then a :: rest
    else if t < a then t :: a :: rest
    else a :: insertTs t rest

/-- Sorted union of a list of timestamps. -/
def tsUnion (ts : List ℚ) : List ℚ := ts.foldr insertTs []

/-- The row alignment performed by `pd.concat([df_lat, df_lon, df_ver],
axis=1)` in `get_acc_data`: one row per timestamp of the union of the three
indexes, each channel contributing its value where present and NaN (`none`)
where absent. -/
def outerJoin3 (lat lon ver : List (ℚ × ℚ)) : List (ℚ × (Option ℚ × Option ℚ × Option ℚ)) :=
  (tsUnion (lat.map Prod.fst ++ lon.map Prod.fst ++ ver.map Prod.fst)).map
    (fun t => (t, (lookupTs lat t, lookupTs lon t, lookupTs ver t)))

/-- Embedding of `get_r` composed with squaring.  The source computes
`(lat**2 + lon**2 + ver**2) ** 0.5` row-wise on the aligned frame; the square
root of a rational is irrational in general, so the embedding keeps the
squared magnitude `lat² + lon² + ver²`.  Float `** 0.5` is a strictly
monotone map of the nonnegative reals that sends NaN to NaN, so which rows
carry a value (`some`) and which carry NaN (`none`) — all that the alignment
claims are about — is exactly as in the source. -/
def get_r_sq (acc : List (ℚ × (Option ℚ × Option ℚ × Option ℚ))) : List (ℚ × Option ℚ) :=
  acc.map (fun row =>
    (row.1,
     match row.2 with
     | (some x, some y, some z) => some (x ^ 2 + y ^ 2 + z ^ 2)
     | _ => none))

/-- Following the spec's words, for comparison with the code: the arithmetic
mean of the samples whose timestamp lies in the half-open window
`[a, a + d)`. -/
def specHalfOpenMean (s : List (ℚ × ℚ)) (a d : ℚ) : ℚ :=
  meanQ ((s.filter (fun pr => decide (a ≤ pr.1 ∧ pr.1 < a + d))).map Prod.snd)

/-! ### Loop-boundary lemmas -/

theorem nextMark_gt {p : ℚ} (hp : 0 < p) (t : ℚ) : t < nextMark p t := by
  have h1 : t / p < (⌊t / p⌋ : ℚ) + 1 := Int.lt_floor_add_one _
  have h2 : t / p < ((⌊t / p⌋ + 1 : ℤ) : ℚ) := by push_cast; linarith
  have := (div_lt_iff hp).mp h2
  simpa [nextMark] using this

theorem floor_nextMark {p : ℚ} (hp : 0 < p) (t : ℚ) :
    ⌊nextMark p t / p⌋ = ⌊t / p⌋ + 1 := by
  have h : nextMark p t / p = ((⌊t / p⌋ + 1 : ℤ) : ℚ) := by
    rw [nextMark]
    push_cast
    field_simp
  rw [h, Int.floor_intCast]

theorem floor_succ_lt_ceil {p t e : ℚ} (hp : 0 < p) (h : nextMark p t < e) :
    ⌊t / p⌋ + 1 < ⌈e / p⌉ := by
  have h1 : ((⌊t / p⌋ + 1 : ℤ) : ℚ) * p < e := by
    have : nextMark p t = ((⌊t / p⌋ + 1 : ℤ) : ℚ) * p := by rw [nextMark]; push_cast; ring
    linarith [this ▸ h]
  have h2 : ((⌊t / p⌋ + 1 : ℤ) : ℚ) < e / p := (lt_div_iff hp).mpr h1
  exact_mod_cast lt_of_lt_of_le h2 (Int.le_ceil _)

theorem marksGo_congr {p e : ℚ} (hp : 0 < p) :
    ∀ n m beg, (⌈e / p⌉ - ⌊beg / p⌋).toNat < n → (⌈e / p⌉ - ⌊beg / p⌋).toNat < m →
      marksGo p e n beg = marksGo p e m beg := by
  intro n
  induction n with
  | zero => intro m beg hn _; omega
  | succ n ih =>
    intro m beg hn hm
    match m with
    | 0 => omega
    | m + 1 =>
      show marksGo p e (n + 1) beg = marksGo p e (m + 1) beg
      rw [marksGo, marksGo]
      by_cases hbe : beg < e
      · simp only [if_pos hbe]
        by_cases hnm : e ≤ nextMark p beg
        · simp [hnm]
        · simp only [if_neg hnm]
          have hlt : nextMark p beg < e := lt_of_not_le hnm
          have hstep : ⌊beg / p⌋ + 1 < ⌈e / p⌉ := floor_succ_lt_ceil hp hlt
          have hfl : ⌊nextMark p beg / p⌋ = ⌊beg / p⌋ + 1 := floor_nextMark hp beg
          have h1 : (⌈e / p⌉ - ⌊nextMark p beg / p⌋).toNat < n := by omega
          have h2 : (⌈e / p⌉ - ⌊nextMark p beg / p⌋).toNat < m := by omega
          rw [ih m (nextMark p beg) h1 h2]
      · simp [hbe]

theorem marks_eq {p : ℚ} (hp : 0 < p) (beg e : ℚ) :
    marks p beg e =
      if beg < e then
        (if e ≤ nextMark p beg then [e] else nextMark p beg :: marks p (nextMark p beg) e)
      else [] := by
  rw [marks, marksGo]
  by_cases hbe : beg < e
  · simp only [if_pos hbe]
    by_cases hnm : e ≤ nextMark p beg
    · simp [hnm]
    · simp only [if_neg hnm]
      have hlt : nextMark p beg < e := lt_of_not_le hnm
      have hstep : ⌊beg / p⌋ + 1 < ⌈e / p⌉ := floor_succ_lt_ceil hp hlt
      have hfl : ⌊nextMark p beg / p⌋ = ⌊beg / p⌋ + 1 := floor_nextMark hp beg
      rw [marks]
      congr 1
      exact marksGo_congr hp _ _ _ (by omega) (by omega)
  · simp [hbe]

theorem marks_ne_nil {p beg e : ℚ} (hp : 0 < p) (hbe : beg < e) : marks p beg e ≠ [] := by
  rw [marks_eq hp]
  simp only [if_pos hbe]
  by_cases hnm : e ≤ nextMark p beg <;> simp [hnm]

theorem getLast?_cons_ne {α : Type} {l : List α} (a : α) (h : l ≠ []) :
    (a :: l).getLast? = l.getLast? := by
  cases l with
  | nil => exact absurd rfl h
  | cons b l' => simp

theorem marks_spec_aux {p e : ℚ} (hp : 0 < p) :
    ∀ n beg, (⌈e / p⌉ - ⌊beg / p⌋).toNat ≤ n → beg < e →
      List.Chain' (· < ·) (beg :: marks p beg e) ∧ (marks p beg e).getLast? = some e := by
  intro n
  induction n with
  | zero =>
    intro beg hn hbe
    rw [marks_eq hp]
    simp only [if_pos hbe]
    by_cases hnm : e ≤ nextMark p beg
    · simp [hnm, List.chain'_cons, hbe]
    · have hstep : ⌊beg / p⌋ + 1 < ⌈e / p⌉ := floor_succ_lt_ceil hp (lt_of_not_le hnm)
      omega
  | succ n ih =>
    intro beg hn hbe
    rw [marks_eq hp]
    simp only [if_pos hbe]
    by_cases hnm : e ≤ nextMark p beg
    · simp [hnm, List.chain'_cons, hbe]
    · simp only [if_neg hnm]
      have hlt : nextMark p beg < e := lt_of_not_le hnm
      have hstep : ⌊beg / p⌋ + 1 < ⌈e / p⌉ := floor_succ_lt_ceil hp hlt
      have hfl : ⌊nextMark p beg / p⌋ = ⌊beg / p⌋ + 1 := floor_nextMark hp beg
      obtain ⟨hch, hlast⟩ := ih (nextMark p beg) (by omega) hlt
      refine ⟨List.chain'_cons.mpr ⟨nextMark_gt hp beg, hch⟩, ?_⟩
      rw [getLast?_cons_ne _ (marks_ne_nil hp hlt)]
      exact hlast

theorem marks_spec {p beg e : ℚ} (hp : 0 < p) (hbe : beg < e) :
    List.Chain' (· < ·) (beg :: marks p beg e) ∧ (marks p beg e).getLast? = some e :=
  marks_spec_aux hp _ beg le_rfl hbe

theorem stepCeil_lt {p beg e : ℚ} (hp : 0 < p) (h : beg + p < e) :
    1 < ⌈(e - beg) / p⌉ := by
  have h1 : (1 : ℚ) < (e - beg) / p := (lt_div_iff hp).mpr (by linarith)
  exact_mod_cast lt_of_lt_of_le h1 (Int.le_ceil _)

theorem stepCeil_shift {p beg e : ℚ} (hp : 0 < p) :
    ⌈(e - (beg + p)) / p⌉ = ⌈(e - beg) / p⌉ - 1 := by
  have h : (e - (beg + p)) / p = (e - beg) / p - 1 := by
    rw [show e - (beg + p) = (e - beg) - p by ring, sub_div, div_self hp.ne']
  rw [h]
  exact_mod_cast Int.ceil_sub_int ((e - beg) / p) 1

theorem stepMarksGo_congr {p e : ℚ} (hp : 0 < p) :
    ∀ n m beg, (⌈(e - beg) / p⌉).toNat < n → (⌈(e - beg) / p⌉).toNat < m →
      stepMarksGo p e n beg = stepMarksGo p e m beg := by
  intro n
  induction n with
  | zero => intro m beg hn _; omega
  | succ n ih =>
    intro m beg hn hm
    match m with
    | 0 => omega
    | m + 1 =>
      show stepMarksGo p e (n + 1) beg = stepMarksGo p e (m + 1) beg
      rw [stepMarksGo, stepMarksGo]
      by_cases hbe : beg < e
      · simp only [if_pos hbe]
        by_cases hnm : e ≤ beg + p
        · simp [hnm]
        · simp only [if_neg hnm]
          have hlt : beg + p < e := lt_of_not_le hnm
          have hc : 1 < ⌈(e - beg) / p⌉ := stepCeil_lt hp hlt
          have hsh : ⌈(e - (beg + p)) / p⌉ = ⌈(e - beg) / p⌉ - 1 := stepCeil_shift hp
          rw [ih m (beg + p) (by omega) (by omega)]
      · simp [hbe]

theorem stepMarks_eq {p : ℚ} (hp : 0 < p) (beg e : ℚ) :
    stepMarks p beg e =
      if beg < e then (if e ≤ beg + p then [e] else (beg + p) :: stepMarks p (beg + p) e)
      else [] := by
  rw [stepMarks, stepMarksGo]
  by_cases hbe : beg < e
  · simp only [if_pos hbe]
    by_cases hnm : e ≤ beg + p
    · simp [hnm]
    · simp only [if_neg hnm]
      have hlt : beg + p < e := lt_of_not_le hnm
      have hc : 1 < ⌈(e - beg) / p⌉ := stepCeil_lt hp hlt
      have hsh : ⌈(e - (beg + p)) / p⌉ = ⌈(e - beg) / p⌉ - 1 := stepCeil_shift hp
      rw [stepMarks]
      congr 1
      exact stepMarksGo_congr hp _ _ _ (by omega) (by omega)
  · simp [hbe]

theorem stepMarks_ne_nil {p beg e : ℚ} (hp : 0 < p) (hbe : beg < e) : stepMarks p beg e ≠ [] := by
  rw [stepMarks_eq hp]
  simp only [if_pos hbe]
  by_cases hnm : e ≤ beg + p <;> simp [hnm]

theorem stepMarks_spec_aux {p e : ℚ} (hp : 0 < p) :
    ∀ n beg, (⌈(e - beg) / p⌉).toNat ≤ n → beg < e →
      List.Chain' (· < ·) (beg :: stepMarks p beg e) ∧ (stepMarks p beg e).getLast? = some e := by
  intro n
  induction n with
  | zero =>
    intro beg hn hbe
    rw [stepMarks_eq hp]
    simp only [if_pos hbe]
    by_cases hnm : e ≤ beg + p
    · simp [hnm, List.chain'_cons, hbe]
    · have := stepCeil_lt hp (lt_of_not_le hnm)
      omega
  | succ n ih =>
    intro beg hn hbe
    rw [stepMarks_eq hp]
    simp only [if_pos hbe]
    by_cases hnm : e ≤ beg + p
    · simp [hnm, List.chain'_cons, hbe]
    · simp only [if_neg hnm]
      have hlt : beg + p < e := lt_of_not_le hnm
      have hc : 1 < ⌈(e - beg) / p⌉ := stepCeil_lt hp hlt
      have hsh : ⌈(e - (beg + p)) / p⌉ = ⌈(e - beg) / p⌉ - 1 := stepCeil_shift hp
      obtain ⟨hch, hlast⟩ := ih (beg + p) (by omega) hlt
      refine ⟨List.chain'_cons.mpr ⟨by linarith, hch⟩, ?_⟩
      rw [getLast?_cons_ne _ (stepMarks_ne_nil hp hlt)]
      exact hlast

theorem stepMarks_spec {p beg e : ℚ} (hp : 0 < p) (hbe : beg < e) :
    List.Chain' (· < ·) (beg :: stepMarks p beg e) ∧ (stepMarks p beg e).getLast? = some e :=
  stepMarks_spec_aux hp _ beg le_rfl hbe

/-! ### Basic series lemmas -/

theorem firstTs_cons (p : ℚ × ℚ) (rest : List (ℚ × ℚ)) : firstTs (p :: rest) = p.1 := rfl

theorem lastTs_singleton (p : ℚ × ℚ) : lastTs [p] = p.1 := rfl

theorem lastTs_cons_ne (p : ℚ × ℚ) {rest : List (ℚ × ℚ)} (h : rest ≠ []) :
    lastTs (p :: rest) = lastTs rest := by
  unfold lastTs
  rw [getLast?_cons_ne _ h]

theorem firstTs_append {s : List (ℚ × ℚ)} (u : List (ℚ × ℚ)) (h : s ≠ []) :
    firstTs (s ++ u) = firstTs s := by
  cases s with
  | nil => exact absurd rfl h
  | cons p rest => simp [firstTs]

theorem lastTs_append (s : List (ℚ × ℚ)) {u : List (ℚ × ℚ)} (h : u ≠ []) :
    lastTs (s ++ u) = lastTs u := by
  unfold lastTs
  rw [List.getLast?_append]
  cases hu : u.getLast? with
  | none => exact absurd (List.getLast?_eq_none_iff.mp hu) h
  | some q => simp [hu]

theorem shiftTs_ne_nil (c : ℚ) {s : List (ℚ × ℚ)} (h : s ≠ []) : shiftTs c s ≠ [] := by
  simpa [shiftTs] using h

theorem firstTs_shiftTs (c : ℚ) {s : List (ℚ × ℚ)} (h : s ≠ []) :
    firstTs (shiftTs c s) = firstTs s + c := by
  cases s with
  | nil => exact absurd rfl h
  | cons p rest => simp [shiftTs, firstTs]

theorem lastTs_shiftTs (c : ℚ) {s : List (ℚ × ℚ)} (h : s ≠ []) :
    lastTs (shiftTs c s) = lastTs s + c := by
  unfold lastTs shiftTs
  rw [List.getLast?_map]
  cases hq : s.getLast? with
  | none => exact absurd (List.getLast?_eq_none_iff.mp hq) h
  | some q => simp [hq]

theorem lastTs_mem {s : List (ℚ × ℚ)} (h : s ≠ []) : ∃ v, (lastTs s, v) ∈ s := by
  cases hq : s.getLast? with
  | none => exact absurd (List.getLast?_eq_none_iff.mp hq) h
  | some q =>
    refine ⟨q.2, ?_⟩
    have hm : q ∈ s := List.mem_of_getLast?_eq_some hq
    have : lastTs s = q.1 := by simp [lastTs, hq]
    simpa [this] using hm

theorem tsSorted_tail {p : ℚ × ℚ} {rest : List (ℚ × ℚ)} (h : tsSorted (p :: rest)) :
    tsSorted rest := by
  have h' : List.Pairwise (· < ·) (p.1 :: rest.map Prod.fst) := h
  exact (List.pairwise_cons.mp h').2

theorem tsSorted_head_lt {p : ℚ × ℚ} {rest : List (ℚ × ℚ)} (h : tsSorted (p :: rest))
    {pr : ℚ × ℚ} (hm : pr ∈ rest) : p.1 < pr.1 := by
  have h' : List.Pairwise (· < ·) (p.1 :: rest.map Prod.fst) := h
  exact (List.pairwise_cons.mp h').1 pr.1 (List.mem_map_of_mem Prod.fst hm)

theorem firstTs_le {s : List (ℚ × ℚ)} (hs : tsSorted s) {pr : ℚ × ℚ} (hm : pr ∈ s) :
    firstTs s ≤ pr.1 := by
  cases s with
  | nil => cases hm
  | cons p rest =>
    rw [firstTs_cons]
    rcases List.mem_cons.mp hm with h | h
    · rw [h]
    · exact le_of_lt (tsSorted_head_lt hs h)

theorem le_lastTs {s : List (ℚ × ℚ)} (hs : tsSorted s) {pr : ℚ × ℚ} (hm : pr ∈ s) :
    pr.1 ≤ lastTs s := by
  induction s with
  | nil => cases hm
  | cons p rest ih =>
    cases rest with
    | nil =>
      rcases List.mem_cons.mp hm with h | h
      · rw [h, lastTs_singleton]
      · cases h
    | cons q rest' =>
      rw [lastTs_cons_ne _ (by simp)]
      rcases List.mem_cons.mp hm with h | h
      · obtain ⟨v, hv⟩ := lastTs_mem (show (q :: rest' : List (ℚ × ℚ)) ≠ [] by simp)
        have := tsSorted_head_lt hs hv
        rw [h]
        exact le_of_lt this
      · exact ih (tsSorted_tail hs) h

/-! ### Evaluation helpers for `nextMark` and `marks` -/

theorem floor_div_eq {x p : ℚ} (k : ℤ) (hp : 0 < p) (h1 : (k : ℚ) * p ≤ x)
    (h2 : x < ((k : ℚ) + 1) * p) : ⌊x / p⌋ = k := by
  rw [Int.floor_eq_iff]
  constructor
  · exact (le_div_iff₀ hp).mpr h1
  · rw [div_lt_iff₀ hp]
    linarith

theorem nextMark_eval {p : ℚ} (t : ℚ) (k : ℤ) (hp : 0 < p) (h1 : (k : ℚ) * p ≤ t)
    (h2 : t < ((k : ℚ) + 1) * p) : nextMark p t = ((k : ℚ) + 1) * p := by
  rw [nextMark, floor_div_eq k hp h1 h2]

theorem marks_step {p beg e m : ℚ} (hp : 0 < p) (hbe : beg < e)
    (hnm : nextMark p beg = m) (hlt : m < e) : marks p beg e = m :: marks p m e := by
  rw [marks_eq hp, if_pos hbe, hnm, if_neg (not_le.mpr hlt)]

theorem marks_last {p beg e : ℚ} (hp : 0 < p) (hbe : beg < e)
    (hge : e ≤ nextMark p beg) : marks p beg e = [e] := by
  rw [marks_eq hp, if_pos hbe, if_pos hge]

/-! ### Window-scan lemmas -/

theorem wmGo_mem_of_anchor {s : List (ℚ × ℚ)} {L d : ℚ} :
    ∀ {anchors : List (ℚ × ℚ)}, tsSorted anchors → ∀ {t v : ℚ}, (t, v) ∈ anchors →
      t + d ≤ L →
      (t + d / 2, meanQ ((sliceC s t (t + d)).map Prod.snd)) ∈ wmGo s L d anchors := by
  intro anchors
  induction anchors with
  | nil => intro _ t v hm; cases hm
  | cons p rest ih =>
    intro hsort t v hm hvalid
    rcases List.mem_cons.mp hm with h | h
    · have hp : p.1 = t := by rw [← h]
      rw [wmGo, if_neg (by rw [hp]; exact not_lt.mpr hvalid), hp]
      exact List.mem_cons_self _ _
    · have hlt : p.1 < t := tsSorted_head_lt hsort h
      rw [wmGo, if_neg (by push_neg; linarith)]
      exact List.mem_cons_of_mem _ (ih (tsSorted_tail hsort) h hvalid)

theorem wmGo_mem_inv {s : List (ℚ × ℚ)} {L d : ℚ} :
    ∀ {anchors : List (ℚ × ℚ)}, ∀ q ∈ wmGo s L d anchors, ∃ t v, (t, v) ∈ anchors ∧
      t + d ≤ L ∧ q = (t + d / 2, meanQ ((sliceC s t (t + d)).map Prod.snd)) := by
  intro anchors
  induction anchors with
  | nil => intro q hq; cases hq
  | cons p rest ih =>
    intro q hq
    rw [wmGo] at hq
    by_cases hc : L < p.1 + d
    · rw [if_pos hc] at hq; cases hq
    · rw [if_neg hc] at hq
      rcases List.mem_cons.mp hq with h | h
      · exact ⟨p.1, p.2, List.mem_cons_self _ _, not_lt.mp hc, h⟩
      · obtain ⟨t, v, hm, hvalid, hform⟩ := ih q h
        exact ⟨t, v, List.mem_cons_of_mem _ hm, hvalid, hform⟩

/-- C1 (amended): the sliding-window scanner records, for each anchor `t` kept
before the break (exactly those with `t + d ≤ last`), the arithmetic mean of
the samples whose timestamp lies in the closed interval `[t, t + d]` — pandas
label slicing includes a sample whose timestamp equals `t + d` — keyed by the
midpoint `t + d/2`; and every recorded entry is of this form. -/
theorem c1_window_mean_closed_interval (s : List (ℚ × ℚ)) (d : ℚ) (hs : tsSorted s) :
    (∀ t v : ℚ, (t, v) ∈ s → t + d ≤ lastTs s →
        (t + d / 2, meanQ ((sliceC s t (t + d)).map Prod.snd)) ∈ windowMeans d s) ∧
    (∀ q ∈ windowMeans d s, ∃ t v, (t, v) ∈ s ∧ t + d ≤ lastTs s ∧
        q = (t + d / 2, meanQ ((sliceC s t (t + d)).map Prod.snd))) := by
  constructor
  · intro t v hm hvalid
    exact wmGo_mem_of_anchor hs hm hvalid
  · intro q hq
    exact wmGo_mem_inv q hq

theorem c1_window_mean_closed_interval_witness :
    tsSorted [((0 : ℚ), (1 : ℚ)), (3600, 2), (18000, 5)] ∧
    (0 : ℚ) + 18000 ≤ lastTs [((0 : ℚ), (1 : ℚ)), (3600, 2), (18000, 5)] ∧
    ((0 : ℚ) + 18000 / 2,
      meanQ ((sliceC [((0 : ℚ), (1 : ℚ)), (3600, 2), (18000, 5)] 0 (0 + 18000)).map Prod.snd)) ∈
      windowMeans 18000 [((0 : ℚ), (1 : ℚ)), (3600, 2), (18000, 5)] :=
  ⟨by decide, by norm_num [lastTs],
   (c1_window_mean_closed_interval _ 18000 (by decide)).1 0 1 (by decide)
     (by norm_num [lastTs])⟩

/-- C1 counterexample: for the series with samples at 0 and 18000 s (values 0
and 6) and the 5-hour window anchored at 0, the code's window mean is 3 — the
sample at `t + d` is included — while the half-open `[t, t + d)` mean of the
claim would be 0. -/
theorem c1_half_open_counterexample :
    windowMeans 18000 [((0 : ℚ), (0 : ℚ)), (18000, 6)] = [(9000, 3)] ∧
    specHalfOpenMean [((0 : ℚ), (0 : ℚ)), (18000, 6)] 0 18000 = 0 ∧ (3 : ℚ) ≠ 0 := by
  refine ⟨?_, ?_, by norm_num⟩
  · norm_num [windowMeans, wmGo, sliceC, meanQ, lastTs, List.filter]
  · norm_num [specHalfOpenMean, meanQ, List.filter]

/-! ### Insufficient-span behaviour of `get_L5` and `get_M10` -/

theorem get_L5_errShort {data : List (ℚ × ℚ)} (h : data ≠ [])
    (hspan : lastTs data - firstTs data < 18000) : get_L5 data = .errShort := by
  unfold get_L5
  rw [if_neg (by simpa [List.isEmpty_iff] using h), if_pos hspan]

theorem windowMeans_eq_nil_of_short {data : List (ℚ × ℚ)} {d : ℚ}
    (hspan : lastTs data - firstTs data < d) : windowMeans d data = [] := by
  cases data with
  | nil => rfl
  | cons p rest =>
    have hspan' : lastTs (p :: rest) - p.1 < d := by simpa [firstTs] using hspan
    have hcond : lastTs (p :: rest) < p.1 + d := by linarith
    rw [windowMeans, wmGo, if_pos hcond]

theorem get_M10_crash_of_short {data : List (ℚ × ℚ)} (h : data ≠ [])
    (hspan : lastTs data - firstTs data < 36000) : get_M10 data = .crash := by
  have hday : ¬(firstTs data + 86400 < lastTs data) := by push_neg; linarith
  have hwm : get_M10_short_period data = none := by
    rw [get_M10_short_period, windowMeans_eq_nil_of_short hspan]
    rfl
  unfold get_M10
  rw [if_neg (by simpa [List.isEmpty_iff] using h), if_neg hday, hwm]

/-- C3 (amended): the insufficient-span condition is caller-visible only for
`get_L5`, which returns the `False` sentinel on any nonempty series whose span
is below 5 hours; `get_M10` has no such guard, and whenever the span is below
its 10-hour window the `ValueError` raised by `max` on the empty window
collection escapes the call as an uncaught fault. -/
theorem c3_L5_signals_M10_crashes :
    (∀ data : List (ℚ × ℚ), data ≠ [] → lastTs data - firstTs data < 18000 →
        get_L5 data = .errShort) ∧
    (∀ data : List (ℚ × ℚ), data ≠ [] → lastTs data - firstTs data < 36000 →
        get_M10 data = .crash) :=
  ⟨fun _ h hspan => get_L5_errShort h hspan,
   fun _ h hspan => get_M10_crash_of_short h hspan⟩

theorem c3_L5_signals_M10_crashes_witness :
    ([((0 : ℚ), (5 : ℚ)), (600, 7)] ≠ [] ∧
      lastTs [((0 : ℚ), (5 : ℚ)), (600, 7)] - firstTs [((0 : ℚ), (5 : ℚ)), (600, 7)] < 18000 ∧
      get_L5 [((0 : ℚ), (5 : ℚ)), (600, 7)] = .errShort) ∧
    ([((10 : ℚ), (1 : ℚ)), (7210, 2)] ≠ [] ∧
      lastTs [((10 : ℚ), (1 : ℚ)), (7210, 2)] - firstTs [((10 : ℚ), (1 : ℚ)), (7210, 2)] < 36000 ∧
      get_M10 [((10 : ℚ), (1 : ℚ)), (7210, 2)] = .crash) :=
  ⟨⟨by decide, by norm_num [lastTs, firstTs],
    c3_L5_signals_M10_crashes.1 _ (by decide) (by norm_num [lastTs, firstTs])⟩,
   ⟨by decide, by norm_num [lastTs, firstTs],
    c3_L5_signals_M10_crashes.2 _ (by decide) (by norm_num [lastTs, firstTs])⟩⟩

/-- C3 counterexample: `get_M10` on a 1-hour series lets the `ValueError` from
`max` on an empty dict escape the call — an uncatchable fault, contradicting
the claim that every core operation signals errors through explicit result
values. -/
theorem c3_uncatchable_fault_counterexample :
    get_M10 [((0 : ℚ), (1 : ℚ)), (3600, 1)] = .crash :=
  get_M10_crash_of_short (by decide) (by norm_num [lastTs, firstTs])

/-- C10: on any nonempty series whose span is at most one day and below 10
hours, `get_M10` takes the whole-series branch, already the first candidate
window overflows the record, and `max` over the empty collection raises: the
call crashes and never returns a timestamp or an error sentinel. -/
theorem c10_M10_crashes_on_short_span (data : List (ℚ × ℚ)) (h : data ≠ [])
    (hday : lastTs data - firstTs data ≤ 86400)
    (hspan : lastTs data - firstTs data < 36000) : get_M10 data = .crash :=
  get_M10_crash_of_short h hspan

theorem c10_M10_crashes_on_short_span_witness :
    ([((0 : ℚ), (2 : ℚ)), (7200, 3)] ≠ [] ∧
      lastTs [((0 : ℚ), (2 : ℚ)), (7200, 3)] - firstTs [((0 : ℚ), (2 : ℚ)), (7200, 3)] ≤ 86400 ∧
      lastTs [((0 : ℚ), (2 : ℚ)), (7200, 3)] - firstTs [((0 : ℚ), (2 : ℚ)), (7200, 3)] < 36000) ∧
    get_M10 [((0 : ℚ), (2 : ℚ)), (7200, 3)] = .crash :=
  ⟨⟨by decide, by norm_num [lastTs, firstTs], by norm_num [lastTs, firstTs]⟩,
   c10_M10_crashes_on_short_span _ (by decide) (by norm_num [lastTs, firstTs])
     (by norm_num [lastTs, firstTs])⟩

/-! ### Concrete day-boundary computations -/

theorem nextMark_day_0 : nextMark 86400 0 = 86400 := by
  have h := nextMark_eval (0 : ℚ) 0 (by norm_num : (0 : ℚ) < 86400) (by norm_num) (by norm_num)
  simpa using h

theorem nextMark_day_1 : nextMark 86400 86400 = 172800 := by
  have h := nextMark_eval (86400 : ℚ) 1 (by norm_num : (0 : ℚ) < 86400) (by norm_num) (by norm_num)
  push_cast at h
  linarith

theorem marks_day_86500 : marks 86400 0 86500 = [86400, 86500] := by
  rw [marks_step (by norm_num) (by norm_num) nextMark_day_0 (by norm_num),
    marks_last (by norm_num) (by norm_num) (by rw [nextMark_day_1]; norm_num)]

theorem marks_day_93600 : marks 86400 0 93600 = [86400, 93600] := by
  rw [marks_step (by norm_num) (by norm_num) nextMark_day_0 (by norm_num),
    marks_last (by norm_num) (by norm_num) (by rw [nextMark_day_1]; norm_num)]

/-- C2: the claim matches the documented intent of `get_L5` (a guard for short
input, then a returned timestamp), but the guard only checks the whole-series
span: on a multi-day series whose final partial-day chunk spans less than 5
hours — here samples at 0, 18000 and 86500 s, total span 86500 s ≥ 5 h — the
last chunk produces an empty window dict and the `ValueError` from `min`
escapes instead of a timestamp being returned. -/
theorem c2_crash_on_short_final_day_chunk :
    18000 ≤ lastTs [((0 : ℚ), (1 : ℚ)), (18000, 1), (86500, 1)] -
      firstTs [((0 : ℚ), (1 : ℚ)), (18000, 1), (86500, 1)] ∧
    get_L5 [((0 : ℚ), (1 : ℚ)), (18000, 1), (86500, 1)] = .crash := by
  refine ⟨by norm_num [lastTs, firstTs], ?_⟩
  have hchunks : dayChunks [((0 : ℚ), (1 : ℚ)), (18000, 1), (86500, 1)] =
      [[((0 : ℚ), (1 : ℚ)), (18000, 1)], [((86500 : ℚ), (1 : ℚ))]] := by
    norm_num [dayChunks, dayIntervals, markIntervals, firstTs, lastTs, marks_day_86500,
      sliceC, List.filter]
  have hnone : get_L5_short_period [((86500 : ℚ), (1 : ℚ))] = none := by
    rw [get_L5_short_period, windowMeans_eq_nil_of_short (by norm_num [lastTs, firstTs])]
    rfl
  unfold get_L5
  rw [if_neg (by simp), if_neg (by norm_num [lastTs, firstTs]),
    if_pos (by norm_num [lastTs, firstTs]), hchunks]
  simp [hnone]

/-- C4 (amended): on the six hourly samples [10,10,10,1,1,1] starting at
2024-01-01T00:00 (taken as time origin 0, a local midnight) with the 5-hour
window, the only window that does not overflow the last timestamp is the one
anchored at 00:00; its closed label slice holds all six samples (mean 5.5),
so `get_L5` returns the midpoint 02:30 (9000 s), not 03:30. -/
theorem c4_returns_midpoint_0230 :
    get_L5 [((0 : ℚ), (10 : ℚ)), (3600, 10), (7200, 10),
      (10800, 1), (14400, 1), (18000, 1)] = .ok 9000 := by
  norm_num [get_L5, get_L5_short_period, windowMeans, wmGo, argminFirst, aminGo,
    meanQ, sliceC, lastTs, firstTs, List.filter]

/-- C4 counterexample: `get_L5` on that series does not return the claimed
midpoint 2024-01-01T03:30 (12600 s after the 2024-01-01T00:00 origin). -/
theorem c4_not_0330_counterexample :
    get_L5 [((0 : ℚ), (10 : ℚ)), (3600, 10), (7200, 10),
      (10800, 1), (14400, 1), (18000, 1)] ≠ .ok 12600 := by
  norm_num [get_L5, get_L5_short_period, windowMeans, wmGo, argminFirst, aminGo,
    meanQ, sliceC, lastTs, firstTs, List.filter]

/-- C5 counterexample: on a 26-hour series with a sample exactly at the
midnight boundary (t = 86400), the two day chunks `data[0:86400]` and
`data[86400:93600]` are closed label slices, and the boundary sample belongs
to both. -/
theorem c5_boundary_sample_in_two_chunks :
    dayChunks [((0 : ℚ), (1 : ℚ)), (43200, 2), (86400, 3), (93600, 4)] =
      [[((0 : ℚ), (1 : ℚ)), (43200, 2), (86400, 3)], [((86400 : ℚ), (3 : ℚ)), (93600, 4)]] ∧
    ((86400 : ℚ), (3 : ℚ)) ∈ [((0 : ℚ), (1 : ℚ)), (43200, 2), (86400, 3)] ∧
    ((86400 : ℚ), (3 : ℚ)) ∈ [((86400 : ℚ), (3 : ℚ)), (93600, 4)] := by
  refine ⟨?_, by decide, by decide⟩
  norm_num [dayChunks, dayIntervals, markIntervals, firstTs, lastTs, marks_day_93600,
    sliceC, List.filter]

/-- C6: each minute bucket handed to `get_VMC` yields, when it holds no
sample, a `None` value keyed by the nominal bucket start `first_timestamp`;
otherwise the mean absolute deviation of the bucket's values from the bucket
mean, keyed by the mean of the bucket's sample timestamps rather than the
nominal bucket boundary. -/
theorem c6_vmc_bucket_result (r : List (ℚ × ℚ)) (first_timestamp : ℚ) :
    (r = [] → get_VMC r first_timestamp = (first_timestamp, none)) ∧
    (r ≠ [] → get_VMC r first_timestamp =
      ((r.map Prod.fst).sum / (r.length : ℚ),
       some (((r.map Prod.snd).map
          (fun v => |v - (r.map Prod.snd).sum / (r.length : ℚ)|)).sum / (r.length : ℚ)))) := by
  constructor
  · intro h; subst h; rfl
  · intro h
    rw [get_VMC, if_neg (by simpa [List.isEmpty_iff] using h)]
    simp [meanQ]

theorem c6_vmc_bucket_result_witness :
    (([] : List (ℚ × ℚ)) = [] ∧ get_VMC [] 5 = ((5 : ℚ), none)) ∧
    ([((0 : ℚ), (2 : ℚ)), (60, 4)] ≠ [] ∧
      get_VMC [((0 : ℚ), (2 : ℚ)), (60, 4)] 0 = ((30 : ℚ), some 1)) := by
  refine ⟨⟨rfl, (c6_vmc_bucket_result [] 5).1 rfl⟩, ⟨by decide, ?_⟩⟩
  have h := (c6_vmc_bucket_result [((0 : ℚ), (2 : ℚ)), (60, 4)] 0).2 (by decide)
  rw [h]
  norm_num

/-- C9: every boundary loop strictly advances its cursor and reaches the end
of its range in one pass: for any period `p > 0` and range `beg < e`, both the
clock-aligned loop boundaries (`marks`: the day loops of `get_L5` / `get_M10`
and the minute loop of `get_VMC_serie`) and the fixed-step hour boundaries
(`stepMarks`) form a strictly increasing chain starting after `beg` whose
final element is exactly `e` (the clipped last boundary). -/
theorem c9_loops_strictly_advance_and_terminate (p beg e : ℚ) (hp : 0 < p) (hbe : beg < e) :
    (List.Chain' (· < ·) (beg :: marks p beg e) ∧ (marks p beg e).getLast? = some e) ∧
    (List.Chain' (· < ·) (beg :: stepMarks p beg e) ∧ (stepMarks p beg e).getLast? = some e) :=
  ⟨marks_spec hp hbe, stepMarks_spec hp hbe⟩

theorem c9_loops_strictly_advance_and_terminate_witness :
    ((0 : ℚ) < 60 ∧ (30 : ℚ) < 150) ∧
    ((List.Chain' (· < ·) ((30 : ℚ) :: marks 60 30 150) ∧
        (marks 60 30 150).getLast? = some 150) ∧
     (List.Chain' (· < ·) ((30 : ℚ) :: stepMarks 60 30 150) ∧
        (stepMarks 60 30 150).getLast? = some 150)) :=
  ⟨⟨by norm_num, by norm_num⟩,
   c9_loops_strictly_advance_and_terminate 60 30 150 (by norm_num) (by norm_num)⟩

/-! ### Chunk-interval lemmas -/

theorem zipTail_boundary_chain (data : List (ℚ × ℚ)) :
    ∀ C : List ℚ, List.Chain' (· < ·) C →
      List.Chain' (fun I J : ℚ × ℚ => I.2 = J.1 ∧
        ∀ pr ∈ data, pr.1 = I.2 → pr ∈ sliceC data I.1 I.2 ∧ pr ∈ sliceC data J.1 J.2)
        (C.zip C.tail) := by
  intro C
  induction C with
  | nil => intro _; simp
  | cons a C' ih =>
    intro h
    cases C' with
    | nil => simp
    | cons b rest =>
      have hab : a < b := (List.chain'_cons.mp h).1
      have htail : List.Chain' (· < ·) (b :: rest) := (List.chain'_cons.mp h).2
      show List.Chain' _ ((a, b) :: (b :: rest).zip rest)
      apply List.chain'_cons'.mpr
      refine ⟨?_, ih htail⟩
      intro y hy
      cases rest with
      | nil => simp at hy
      | cons c rest' =>
        obtain rfl : (b, c) = y := by simpa using hy
        have hbc : b < c := (List.chain'_cons.mp htail).1
        refine ⟨rfl, ?_⟩
        intro pr hpr hpb
        constructor
        · simp only [sliceC, List.mem_filter, decide_eq_true_eq]
          exact ⟨hpr, by rw [hpb]; exact le_of_lt hab, le_of_eq hpb⟩
        · simp only [sliceC, List.mem_filter, decide_eq_true_eq]
          exact ⟨hpr, le_of_eq hpb.symm, by rw [hpb]; exact le_of_lt hbc⟩

theorem zipTail_getLast :
    ∀ (M : List ℚ) (a : ℚ), M ≠ [] → (((a :: M).zip M).getLast?).map Prod.snd = M.getLast? := by
  intro M
  induction M with
  | nil => intro a h; exact absurd rfl h
  | cons m M' ih =>
    intro a _
    cases M' with
    | nil => simp
    | cons m' M'' =>
      show ((((a, m) :: (m :: m' :: M'').zip (m' :: M'')).getLast?).map Prod.snd) = _
      rw [getLast?_cons_ne _ (by rw [List.zip_cons_cons]; exact List.cons_ne_nil _ _),
        ih m (by simp)]
      exact (getLast?_cons_ne m (by simp)).symm

/-- C5 (amended): the chunk intervals of any boundary loop (day chunks of
`get_L5` / `get_M10` with period 86400, minute buckets of `get_VMC_serie`
with period 60) abut exactly — the first interval starts at the range start,
each interval's end is the next interval's start, and the last interval ends
at the range end, so the interval *boundaries* tile the span exactly once —
but the chunks are closed pandas label slices, so a sample lying exactly on a
shared boundary (a midnight or a minute mark) belongs to both adjacent
chunks. -/
theorem c5_chunk_intervals_abut_boundary_samples_shared (data : List (ℚ × ℚ))
    (p beg e : ℚ) (hp : 0 < p) (hbe : beg < e) :
    (markIntervals p beg e).head?.map Prod.fst = some beg ∧
    (markIntervals p beg e).getLast?.map Prod.snd = some e ∧
    List.Chain' (fun I J : ℚ × ℚ => I.2 = J.1 ∧
      ∀ pr ∈ data, pr.1 = I.2 → pr ∈ sliceC data I.1 I.2 ∧ pr ∈ sliceC data J.1 J.2)
      (markIntervals p beg e) := by
  obtain ⟨hchain, hlast⟩ := marks_spec hp hbe
  refine ⟨?_, ?_, ?_⟩
  · rw [markIntervals]
    cases hM : marks p beg e with
    | nil => exact absurd hM (marks_ne_nil hp hbe)
    | cons m M' => simp
  · rw [markIntervals, zipTail_getLast _ _ (marks_ne_nil hp hbe)]
    exact hlast
  · exact zipTail_boundary_chain data (beg :: marks p beg e) hchain

theorem c5_chunk_intervals_witness :
    ((0 : ℚ) < 86400 ∧ (0 : ℚ) < 100000) ∧
    ((markIntervals 86400 0 100000).head?.map Prod.fst = some 0 ∧
     (markIntervals 86400 0 100000).getLast?.map Prod.snd = some 100000 ∧
     List.Chain' (fun I J : ℚ × ℚ => I.2 = J.1 ∧
       ∀ pr ∈ [((0 : ℚ), (1 : ℚ)), (86400, 2)], pr.1 = I.2 →
         pr ∈ sliceC [((0 : ℚ), (1 : ℚ)), (86400, 2)] I.1 I.2 ∧
         pr ∈ sliceC [((0 : ℚ), (1 : ℚ)), (86400, 2)] J.1 J.2)
       (markIntervals 86400 0 100000)) :=
  ⟨⟨by norm_num, by norm_num⟩,
   c5_chunk_intervals_abut_boundary_samples_shared [((0 : ℚ), (1 : ℚ)), (86400, 2)]
     86400 0 100000 (by norm_num) (by norm_num)⟩

/-! ### Channel-alignment lemmas -/

theorem lookupTs_isSome_iff (s : List (ℚ × ℚ)) (t : ℚ) :
    (lookupTs s t).isSome = true ↔ t ∈ s.map Prod.fst := by
  induction s with
  | nil => simp [lookupTs]
  | cons p rest ih =>
    by_cases h : p.1 = t
    · rw [lookupTs, List.find?_cons_of_pos _ (by simpa using h)]
      simp [h]
    · rw [lookupTs, List.find?_cons_of_neg _ (by simpa using h)]
      rw [lookupTs] at ih
      rw [ih]
      simp only [List.map_cons, List.mem_cons]
      constructor
      · exact Or.inr
      · rintro (heq | hm)
        · exact absurd heq.symm h
        · exact hm

theorem mem_insertTs (t x : ℚ) : ∀ l : List ℚ, x ∈ insertTs t l ↔ x = t ∨ x ∈ l := by
  intro l
  induction l with
  | nil => simp [insertTs]
  | cons a rest ih =>
    rw [insertTs]
    by_cases h1 : t = a
    · rw [if_pos h1]
      subst h1
      simp [List.mem_cons]
    · rw [if_neg h1]
      by_cases h2 : t < a
      · rw [if_pos h2]
        simp [List.mem_cons]
      · rw [if_neg h2]
        simp only [List.mem_cons, ih]
        tauto

theorem mem_tsUnion (x : ℚ) : ∀ ts : List ℚ, x ∈ tsUnion ts ↔ x ∈ ts := by
  intro ts
  induction ts with
  | nil => simp [tsUnion]
  | cons a rest ih =>
    rw [tsUnion, List.foldr_cons]
    rw [tsUnion] at ih
    rw [mem_insertTs, ih, List.mem_cons]

/-- C8 (amended): `get_r` performs no validation of channel alignment at all.
The channels are outer-joined on the union of their timestamp sets (the
`pd.concat(..., axis=1)` of `get_acc_data`), and the magnitude of a row is
computed exactly when the timestamp is present in all three channels;
any timestamp missing from at least one channel silently yields a NaN
(missing) magnitude in the output rather than an error. -/
theorem c8_no_validation_silent_nan (lat lon ver : List (ℚ × ℚ)) (t : ℚ) :
    ((t, (none : Option ℚ)) ∈ get_r_sq (outerJoin3 lat lon ver) ↔
      ((t ∈ lat.map Prod.fst ∨ t ∈ lon.map Prod.fst ∨ t ∈ ver.map Prod.fst) ∧
       ¬(t ∈ lat.map Prod.fst ∧ t ∈ lon.map Prod.fst ∧ t ∈ ver.map Prod.fst))) ∧
    (∀ x y z : ℚ, lookupTs lat t = some x → lookupTs lon t = some y →
      lookupTs ver t = some z →
      (t, some (x ^ 2 + y ^ 2 + z ^ 2)) ∈ get_r_sq (outerJoin3 lat lon ver)) := by
  have hunion : ∀ o : Option ℚ, (t, o) ∈ get_r_sq (outerJoin3 lat lon ver) ↔
      (t ∈ lat.map Prod.fst ∨ t ∈ lon.map Prod.fst ∨ t ∈ ver.map Prod.fst) ∧
      o = (match (lookupTs lat t, lookupTs lon t, lookupTs ver t) with
           | (some x, some y, some z) => some (x ^ 2 + y ^ 2 + z ^ 2)
           | _ => none) := by
    intro o
    rw [get_r_sq, outerJoin3, List.map_map, List.mem_map]
    simp only [Function.comp_apply]
    constructor
    · rintro ⟨t', ht', heq⟩
      obtain ⟨rfl, rfl⟩ : t' = t ∧
          (match (lookupTs lat t', lookupTs lon t', lookupTs ver t') with
           | (some x, some y, some z) => some (x ^ 2 + y ^ 2 + z ^ 2)
           | _ => none) = o := by
        have h1 := congrArg Prod.fst heq
        have h2 := congrArg Prod.snd heq
        exact ⟨h1, h2⟩
      rw [mem_tsUnion] at ht'
      simp only [List.mem_append] at ht'
      exact ⟨by tauto, rfl⟩
    · rintro ⟨hmem, rfl⟩
      refine ⟨t, ?_, rfl⟩
      rw [mem_tsUnion]
      simp only [List.mem_append]
      tauto
  constructor
  · rw [hunion none]
    constructor
    · rintro ⟨hmem, hbody⟩
      refine ⟨hmem, ?_⟩
      intro ⟨h1, h2, h3⟩
      rw [← lookupTs_isSome_iff] at h1 h2 h3
      obtain ⟨x, hx⟩ := Option.isSome_iff_exists.mp h1
      obtain ⟨y, hy⟩ := Option.isSome_iff_exists.mp h2
      obtain ⟨z, hz⟩ := Option.isSome_iff_exists.mp h3
      rw [hx, hy, hz] at hbody
      cases hbody
    · rintro ⟨hmem, hnotall⟩
      refine ⟨hmem, ?_⟩
      cases hx : lookupTs lat t with
      | none => rfl
      | some x =>
        cases hy : lookupTs lon t with
        | none => rfl
        | some y =>
          cases hz : lookupTs ver t with
          | none => rfl
          | some z =>
            exfalso
            apply hnotall
            refine ⟨?_, ?_, ?_⟩ <;> rw [← lookupTs_isSome_iff]
            · rw [hx]; rfl
            · rw [hy]; rfl
            · rw [hz]; rfl
  · intro x y z hx hy hz
    rw [hunion (some (x ^ 2 + y ^ 2 + z ^ 2))]
    have h1 : t ∈ lat.map Prod.fst := by
      rw [← lookupTs_isSome_iff, hx]; rfl
    refine ⟨Or.inl h1, ?_⟩
    rw [hx, hy, hz]

theorem c8_no_validation_silent_nan_witness :
    (lookupTs [((0 : ℚ), (3 : ℚ)), (60, 1)] 0 = some 3 ∧
     lookupTs [((0 : ℚ), (4 : ℚ))] 0 = some 4 ∧
     lookupTs [((0 : ℚ), (0 : ℚ))] 0 = some 0) ∧
    ((60 : ℚ), (none : Option ℚ)) ∈
      get_r_sq (outerJoin3 [((0 : ℚ), (3 : ℚ)), (60, 1)] [((0 : ℚ), (4 : ℚ))]
        [((0 : ℚ), (0 : ℚ))]) ∧
    ((0 : ℚ), some ((3 : ℚ) ^ 2 + 4 ^ 2 + 0 ^ 2)) ∈
      get_r_sq (outerJoin3 [((0 : ℚ), (3 : ℚ)), (60, 1)] [((0 : ℚ), (4 : ℚ))]
        [((0 : ℚ), (0 : ℚ))]) :=
  ⟨⟨by decide, by decide, by decide⟩,
   (c8_no_validation_silent_nan [((0 : ℚ), (3 : ℚ)), (60, 1)] [((0 : ℚ), (4 : ℚ))]
       [((0 : ℚ), (0 : ℚ))] 60).1.mpr ⟨by decide, by decide⟩,
   (c8_no_validation_silent_nan [((0 : ℚ), (3 : ℚ)), (60, 1)] [((0 : ℚ), (4 : ℚ))]
       [((0 : ℚ), (0 : ℚ))] 0).2 3 4 0 (by decide) (by decide) (by decide)⟩

/-- C8 counterexample: with misaligned channels (the lateral channel has a
sample at t = 60 that the other channels lack) `get_r` raises no error and
produces a normal output frame containing the silent NaN row `(60, none)`
next to the valid row `(0, 25)` — a Pythagorean check: 3² + 4² + 0² = 25. -/
theorem c8_silent_nan_counterexample :
    [((0 : ℚ), (3 : ℚ)), (60, 1)].map Prod.fst ≠ [((0 : ℚ), (4 : ℚ))].map Prod.fst ∧
    get_r_sq (outerJoin3 [((0 : ℚ), (3 : ℚ)), (60, 1)] [((0 : ℚ), (4 : ℚ))]
      [((0 : ℚ), (0 : ℚ))]) = [(0, some 25), (60, none)] := by
  constructor
  · decide
  · with_unfolding_all decide

/-! ### Shift equivariance of the short-period scan -/

theorem map_snd_shiftTs (c : ℚ) (s : List (ℚ × ℚ)) :
    (shiftTs c s).map Prod.snd = s.map Prod.snd := by
  simp [shiftTs, List.map_map, Function.comp]

theorem sliceC_shift (c a b : ℚ) (s : List (ℚ × ℚ)) :
    sliceC (shiftTs c s) (a + c) (b + c) = shiftTs c (sliceC s a b) := by
  rw [sliceC, shiftTs, List.filter_map, sliceC, shiftTs]
  congr 1
  apply List.filter_congr
  intro pr _
  simp only [Function.comp_apply]
  apply decide_eq_decide.mpr
  constructor
  · rintro ⟨h1, h2⟩; exact ⟨by linarith, by linarith⟩
  · rintro ⟨h1, h2⟩; exact ⟨by linarith, by linarith⟩

theorem wmGo_shift (c L d : ℚ) (s : List (ℚ × ℚ)) :
    ∀ anchors : List (ℚ × ℚ),
      wmGo (shiftTs c s) (L + c) d (shiftTs c anchors) =
        (wmGo s L d anchors).map (fun q => (q.1 + c, q.2)) := by
  intro anchors
  induction anchors with
  | nil => rfl
  | cons p rest ih =>
    show wmGo (shiftTs c s) (L + c) d ((p.1 + c, p.2) :: shiftTs c rest) = _
    rw [wmGo, wmGo]
    by_cases h : L < p.1 + d
    · rw [if_pos (show L + c < ((p.1 + c, p.2) : ℚ × ℚ).1 + d by
        show L + c < p.1 + c + d; linarith), if_pos h]
      rfl
    · rw [if_neg (show ¬(L + c < ((p.1 + c, p.2) : ℚ × ℚ).1 + d) by
        show ¬(L + c < p.1 + c + d); intro hc; exact h (by linarith)), if_neg h]
      rw [List.map_cons, ← ih]
      congr 1
      have harg : ((p.1 + c, p.2) : ℚ × ℚ).1 + d = (p.1 + d) + c := by
        show p.1 + c + d = (p.1 + d) + c; ring
      rw [harg, sliceC_shift, map_snd_shiftTs]
      simp only [Prod.mk.injEq]
      exact ⟨by ring, trivial⟩

theorem aminGo_shift (c : ℚ) :
    ∀ (l : List (ℚ × ℚ)) (best : ℚ × ℚ),
      aminGo (best.1 + c, best.2) (l.map (fun q => (q.1 + c, q.2))) = aminGo best l + c := by
  intro l
  induction l with
  | nil => intro best; rfl
  | cons q rest ih =>
    intro best
    rw [List.map_cons, aminGo, aminGo]
    by_cases h : q.2 < best.2
    · rw [if_pos h, if_pos h]
      exact ih q
    · rw [if_neg h, if_neg h]
      exact ih best

theorem argminFirst_shift (c : ℚ) (l : List (ℚ × ℚ)) :
    argminFirst (l.map (fun q => (q.1 + c, q.2))) = (argminFirst l).map (· + c) := by
  cases l with
  | nil => rfl
  | cons p rest =>
    rw [List.map_cons, argminFirst, argminFirst, Option.map_some']
    exact congrArg some (aminGo_shift c rest p)

theorem shiftTs_eq_map (c : ℚ) (s : List (ℚ × ℚ)) :
    shiftTs c s = s.map (fun q => (q.1 + c, q.2)) := rfl

theorem get_L5_short_period_shift (c : ℚ) (s : List (ℚ × ℚ)) :
    get_L5_short_period (shiftTs c s) = (get_L5_short_period s).map (· + c) := by
  cases s with
  | nil => rfl
  | cons p rest =>
    rw [get_L5_short_period, get_L5_short_period, windowMeans, windowMeans,
      lastTs_shiftTs c (by simp : (p :: rest : List (ℚ × ℚ)) ≠ [])]
    rw [show shiftTs c (p :: rest) = shiftTs c (p :: rest) from rfl]
    rw [wmGo_shift c (lastTs (p :: rest)) 18000 (p :: rest) (p :: rest)]
    exact argminFirst_shift c _

theorem get_L5_short_period_isSome {s : List (ℚ × ℚ)} (h : s ≠ [])
    (hspan : firstTs s + 18000 ≤ lastTs s) : ∃ m, get_L5_short_period s = some m := by
  cases s with
  | nil => exact absurd rfl h
  | cons p rest =>
    have hp : firstTs (p :: rest) = p.1 := rfl
    rw [hp] at hspan
    rw [get_L5_short_period, windowMeans, wmGo, if_neg (not_lt.mpr hspan)]
    exact ⟨_, rfl⟩

/-! ### Day chunking of a three-identical-days series -/

theorem firstTs_mem {s : List (ℚ × ℚ)} (h : s ≠ []) : ∃ v, (firstTs s, v) ∈ s := by
  cases s with
  | nil => exact absurd rfl h
  | cons p rest => exact ⟨p.2, List.mem_cons_self _ _⟩

theorem sliceC_all {u : List (ℚ × ℚ)} {a b : ℚ} (h : ∀ pr ∈ u, a ≤ pr.1 ∧ pr.1 ≤ b) :
    sliceC u a b = u :=
  List.filter_eq_self.mpr (fun pr hm => by simpa using h pr hm)

theorem sliceC_none {u : List (ℚ × ℚ)} {a b : ℚ} (h : ∀ pr ∈ u, ¬(a ≤ pr.1 ∧ pr.1 ≤ b)) :
    sliceC u a b = [] :=
  List.filter_eq_nil_iff.mpr (fun pr hm => by simpa using h pr hm)

theorem sliceC_append (s u : List (ℚ × ℚ)) (a b : ℚ) :
    sliceC (s ++ u) a b = sliceC s a b ++ sliceC u a b := by
  rw [sliceC, List.filter_append, sliceC, sliceC]

theorem L5_three_identical_days (s : List (ℚ × ℚ)) (k : ℤ) (hne : s ≠ [])
    (hs : tsSorted s)
    (hrange : ∀ pr ∈ s, (k : ℚ) * 86400 < pr.1 ∧ pr.1 < ((k : ℚ) + 1) * 86400)
    (hspan : 18000 ≤ lastTs s - firstTs s) :
    get_L5 (s ++ shiftTs 86400 s ++ shiftTs 172800 s) = get_L5 (shiftTs 86400 s) := by
  obtain ⟨v0, hv0⟩ := firstTs_mem hne
  obtain ⟨vl, hvl⟩ := lastTs_mem hne
  have ht0 := hrange _ hv0
  have htl := hrange _ hvl
  have ht0l : firstTs s ≤ lastTs s := le_lastTs hs hv0
  have hu_ne : shiftTs 86400 s ≠ [] := shiftTs_ne_nil _ hne
  have hw_ne : shiftTs 172800 s ≠ [] := shiftTs_ne_nil _ hne
  have hsu_ne : s ++ shiftTs 86400 s ≠ [] := by simp [List.append_eq_nil, hne]
  have hS_ne : s ++ shiftTs 86400 s ++ shiftTs 172800 s ≠ [] := by
    simp [List.append_eq_nil, hne]
  have hfS : firstTs (s ++ shiftTs 86400 s ++ shiftTs 172800 s) = firstTs s := by
    rw [firstTs_append _ hsu_ne, firstTs_append _ hne]
  have hlS : lastTs (s ++ shiftTs 86400 s ++ shiftTs 172800 s) = lastTs s + 172800 := by
    rw [lastTs_append _ hw_ne, lastTs_shiftTs _ hne]
  -- the three per-day boundaries of the day loop
  have hm1 : nextMark 86400 (firstTs s) = ((k : ℚ) + 1) * 86400 :=
    nextMark_eval _ k (by norm_num) (le_of_lt ht0.1) ht0.2
  have hm2 : nextMark 86400 (((k : ℚ) + 1) * 86400) = ((k : ℚ) + 2) * 86400 := by
    have h : nextMark 86400 (((k : ℚ) + 1) * 86400) = (((k + 1 : ℤ) : ℚ) + 1) * 86400 :=
      nextMark_eval _ (k + 1) (by norm_num) (by push_cast; linarith) (by push_cast; linarith)
    push_cast at h
    linarith
  have hm3 : nextMark 86400 (((k : ℚ) + 2) * 86400) = ((k : ℚ) + 3) * 86400 := by
    have h : nextMark 86400 (((k : ℚ) + 2) * 86400) = (((k + 2 : ℤ) : ℚ) + 1) * 86400 :=
      nextMark_eval _ (k + 2) (by norm_num) (by push_cast; linarith) (by push_cast; linarith)
    push_cast at h
    linarith
  have hmarks : marks 86400 (firstTs s) (lastTs s + 172800) =
      [((k : ℚ) + 1) * 86400, ((k : ℚ) + 2) * 86400, lastTs s + 172800] := by
    rw [marks_step (by norm_num) (by linarith) hm1 (by nlinarith [htl.1]),
      marks_step (by norm_num) (by nlinarith [htl.1]) hm2 (by nlinarith [htl.1]),
      marks_last (by norm_num) (by nlinarith [htl.1]) (by rw [hm3]; nlinarith [htl.2])]
  -- bounds of the shifted copies
  have hru : ∀ pr ∈ shiftTs 86400 s, ((k : ℚ) + 1) * 86400 < pr.1 ∧
      pr.1 < ((k : ℚ) + 2) * 86400 := by
    intro pr hm
    rw [shiftTs, List.mem_map] at hm
    obtain ⟨q, hq, rfl⟩ := hm
    have := hrange q hq
    constructor <;> [skip; skip] <;> show _ < _
    · show ((k : ℚ) + 1) * 86400 < q.1 + 86400; linarith
    · show q.1 + 86400 < ((k : ℚ) + 2) * 86400; linarith
  have hrw : ∀ pr ∈ shiftTs 172800 s, ((k : ℚ) + 2) * 86400 < pr.1 ∧
      pr.1 < ((k : ℚ) + 3) * 86400 := by
    intro pr hm
    rw [shiftTs, List.mem_map] at hm
    obtain ⟨q, hq, rfl⟩ := hm
    have := hrange q hq
    constructor
    · show ((k : ℚ) + 2) * 86400 < q.1 + 172800; linarith
    · show q.1 + 172800 < ((k : ℚ) + 3) * 86400; linarith
  have hwle : ∀ pr ∈ shiftTs 172800 s, pr.1 ≤ lastTs s + 172800 := by
    intro pr hm
    rw [shiftTs, List.mem_map] at hm
    obtain ⟨q, hq, rfl⟩ := hm
    have := le_lastTs hs hq
    show q.1 + 172800 ≤ lastTs s + 172800
    linarith
  -- the three chunk slices
  have hslice1 : sliceC (s ++ shiftTs 86400 s ++ shiftTs 172800 s) (firstTs s)
      (((k : ℚ) + 1) * 86400) = s := by
    rw [sliceC_append, sliceC_append]
    rw [sliceC_all (fun pr hm => ⟨firstTs_le hs hm, le_of_lt (hrange pr hm).2⟩),
      sliceC_none (fun pr hm h => by have := (hru pr hm).1; linarith [h.2]),
      sliceC_none (fun pr hm h => by have := (hrw pr hm).1; linarith [h.2])]
    simp
  have hslice2 : sliceC (s ++ shiftTs 86400 s ++ shiftTs 172800 s)
      (((k : ℚ) + 1) * 86400) (((k : ℚ) + 2) * 86400) = shiftTs 86400 s := by
    rw [sliceC_append, sliceC_append]
    rw [sliceC_none (fun pr hm h => by have := (hrange pr hm).2; linarith [h.1]),
      sliceC_all (fun pr hm => ⟨le_of_lt (hru pr hm).1, le_of_lt (hru pr hm).2⟩),
      sliceC_none (fun pr hm h => by have := (hrw pr hm).1; linarith [h.2])]
    simp
  have hslice3 : sliceC (s ++ shiftTs 86400 s ++ shiftTs 172800 s)
      (((k : ℚ) + 2) * 86400) (lastTs s + 172800) = shiftTs 172800 s := by
    rw [sliceC_append, sliceC_append]
    rw [sliceC_none (fun pr hm h => by have := (hrange pr hm).2; nlinarith [h.1]),
      sliceC_none (fun pr hm h => by have := (hru pr hm).2; linarith [h.1]),
      sliceC_all (fun pr hm => ⟨le_of_lt (hrw pr hm).1, hwle pr hm⟩)]
    simp
  have hchunks : dayChunks (s ++ shiftTs 86400 s ++ shiftTs 172800 s) =
      [s, shiftTs 86400 s, shiftTs 172800 s] := by
    rw [dayChunks, dayIntervals, markIntervals, hfS, hlS, hmarks]
    simp only [List.zip_cons_cons, List.zip_nil_right, List.map_cons, List.map_nil]
    rw [hslice1, hslice2, hslice3]
  -- the three per-day results
  obtain ⟨m, hm⟩ := get_L5_short_period_isSome hne (by linarith)
  have hg1 : get_L5_short_period (shiftTs 86400 s) = some (m + 86400) := by
    rw [get_L5_short_period_shift, hm]
    rfl
  have hg2 : get_L5_short_period (shiftTs 172800 s) = some (m + 172800) := by
    rw [get_L5_short_period_shift, hm]
    rfl
  have hmean : meanQ [m, m + 86400, m + 172800] = m + 86400 := by
    rw [meanQ]
    norm_num
    rw [div_eq_iff (by norm_num : (3 : ℚ) ≠ 0)]
    ring
  have hLHS : get_L5 (s ++ shiftTs 86400 s ++ shiftTs 172800 s) = .ok (m + 86400) := by
    unfold get_L5
    rw [if_neg (by simpa [List.isEmpty_iff] using hS_ne),
      if_neg (by rw [hfS, hlS]; push_neg; linarith),
      if_pos (by rw [hfS, hlS]; linarith),
      hchunks]
    simp only [List.map_cons, List.map_nil, hm, hg1, hg2]
    rw [if_pos (by simp)]
    simp only [List.reduceOption_cons_of_some, List.reduceOption_nil]
    rw [hmean]
  have hRHS : get_L5 (shiftTs 86400 s) = .ok (m + 86400) := by
    unfold get_L5
    rw [if_neg (by simpa [List.isEmpty_iff] using hu_ne),
      if_neg (by rw [lastTs_shiftTs _ hne, firstTs_shiftTs _ hne]; push_neg; linarith),
      if_neg (by rw [lastTs_shiftTs _ hne, firstTs_shiftTs _ hne]; push_neg; nlinarith [ht0.1, htl.2]),
      hg1]
  rw [hLHS, hRHS]

/-- C7 (amended): if a 3-day series is the exact concatenation of three
identical 1-day segments (the same pattern of samples repeated on three
consecutive calendar days, each sample lying strictly inside its day, segment
span at least 5 hours), then `get_L5` over the 3-day series equals `get_L5`
over the MIDDLE segment — equivalently, the first segment's result shifted by
one day — because the per-day midpoints are averaged as absolute timestamps. -/
theorem c7_L5_concat_equals_middle_day (s : List (ℚ × ℚ)) (k : ℤ) (hne : s ≠ [])
    (hs : tsSorted s)
    (hrange : ∀ pr ∈ s, (k : ℚ) * 86400 < pr.1 ∧ pr.1 < ((k : ℚ) + 1) * 86400)
    (hspan : 18000 ≤ lastTs s - firstTs s) :
    get_L5 (s ++ shiftTs 86400 s ++ shiftTs 172800 s) = get_L5 (shiftTs 86400 s) :=
  L5_three_identical_days s k hne hs hrange hspan

theorem c7_L5_concat_equals_middle_day_witness :
    (([((3600 : ℚ), (10 : ℚ)), (7200, 10), (10800, 10), (14400, 1), (18000, 1),
        (21600, 1)] : List (ℚ × ℚ)) ≠ [] ∧
      tsSorted [((3600 : ℚ), (10 : ℚ)), (7200, 10), (10800, 10), (14400, 1), (18000, 1),
        (21600, 1)] ∧
      (∀ pr ∈ ([((3600 : ℚ), (10 : ℚ)), (7200, 10), (10800, 10), (14400, 1), (18000, 1),
          (21600, 1)] : List (ℚ × ℚ)),
        ((0 : ℤ) : ℚ) * 86400 < pr.1 ∧ pr.1 < (((0 : ℤ) : ℚ) + 1) * 86400) ∧
      18000 ≤ lastTs [((3600 : ℚ), (10 : ℚ)), (7200, 10), (10800, 10), (14400, 1),
          (18000, 1), (21600, 1)] -
        firstTs [((3600 : ℚ), (10 : ℚ)), (7200, 10), (10800, 10), (14400, 1), (18000, 1),
          (21600, 1)]) ∧
    get_L5 ([((3600 : ℚ), (10 : ℚ)), (7200, 10), (10800, 10), (14400, 1), (18000, 1),
        (21600, 1)] ++
      shiftTs 86400 [((3600 : ℚ), (10 : ℚ)), (7200, 10), (10800, 10), (14400, 1),
        (18000, 1), (21600, 1)] ++
      shiftTs 172800 [((3600 : ℚ), (10 : ℚ)), (7200, 10), (10800, 10), (14400, 1),
        (18000, 1), (21600, 1)]) =
      get_L5 (shiftTs 86400 [((3600 : ℚ), (10 : ℚ)), (7200, 10), (10800, 10), (14400, 1),
        (18000, 1), (21600, 1)]) :=
  ⟨⟨by decide, by decide, by norm_num [List.forall_mem_cons], by norm_num [lastTs, firstTs]⟩,
   c7_L5_concat_equals_middle_day _ 0 (by decide) (by decide)
     (by norm_num [List.forall_mem_cons]) (by norm_num [lastTs, firstTs])⟩

/-- C7 counterexample: for the segment with hourly samples [10,10,10,1,1,1]
at 01:00–06:00 repeated on three consecutive days, `get_L5` of the 3-day
concatenation is 27:30 (99000 s, a time on the middle day) while `get_L5` of
one segment is 03:30 of the first day (12600 s): averaging the per-day
midpoints as absolute timestamps does not reproduce the first segment's
result. -/
theorem c7_first_segment_counterexample :
    get_L5 ([((3600 : ℚ), (10 : ℚ)), (7200, 10), (10800, 10), (14400, 1), (18000, 1),
        (21600, 1)] ++
      shiftTs 86400 [((3600 : ℚ), (10 : ℚ)), (7200, 10), (10800, 10), (14400, 1),
        (18000, 1), (21600, 1)] ++
      shiftTs 172800 [((3600 : ℚ), (10 : ℚ)), (7200, 10), (10800, 10), (14400, 1),
        (18000, 1), (21600, 1)]) ≠
      get_L5 [((3600 : ℚ), (10 : ℚ)), (7200, 10), (10800, 10), (14400, 1), (18000, 1),
        (21600, 1)] := by
  rw [L5_three_identical_days _ 0 (by decide) (by decide)
    (by norm_num [List.forall_mem_cons]) (by norm_num [lastTs, firstTs])]
  have h1 : get_L5 (shiftTs 86400 [((3600 : ℚ), (10 : ℚ)), (7200, 10), (10800, 10),
      (14400, 1), (18000, 1), (21600, 1)]) = .ok 99000 := by
    norm_num [shiftTs, get_L5, get_L5_short_period, windowMeans, wmGo, argminFirst,
      aminGo, meanQ, sliceC, lastTs, firstTs, List.filter]
  have h2 : get_L5 [((3600 : ℚ), (10 : ℚ)), (7200, 10), (10800, 10), (14400, 1),
      (18000, 1), (21600, 1)] = .ok 12600 := by
    norm_num [get_L5, get_L5_short_period, windowMeans, wmGo, argminFirst,
      aminGo, meanQ, sliceC, lastTs, firstTs, List.filter]
  rw [h1, h2]
  intro h
  cases h
